import Mathlib

set_option maxRecDepth 40000
set_option maxHeartbeats 1000000

/-!
Shallow embedding of the camber range-generation and polynomial utilities
(src/utility.rs, src/lib.rs, src/compose.rs).

Modelling conventions:
- Rust `f64` values are modelled by `ℚ` (exact arithmetic).  Every arithmetic
  expression of the source that a theorem below evaluates is exact in binary64
  as well, except where a claim is itself about rounding or non-finite values;
  those places use the dedicated models `fdivN` (a division whose result is
  not finite, e.g. `0.0/0.0 = NaN`), the `F64` type with infinities and NaN,
  and the round-to-nearest model `round64` (used for the `flip` subtraction
  and for the rounded stepper advance `next64` and hint arithmetic in
  `Stepper.size_hint`).
- Rust `usize`/`u32` are modelled by `ℕ` (no claim below exercises wrap-around
  of the machine width; the one place the source can underflow a `usize`
  subtraction is modelled explicitly with `checkedSub`).
- A Rust iterator `next` is a function `state → Option value × state`;
  `None` is the "no value" (exhausted) result.
-/

/-- Model of `utility.rs::lerp`: `a*(1.-t) + b*t`. -/
def lerp (a b t : ℚ) : ℚ :=
  a * (1 - t) + b * t

/-- Model of an `f64` division whose result may be non-finite: `none` models
the non-finite IEEE result produced when the divisor is `0.0` (in the one
reachable such case below the numerator is also `0.0`, giving NaN). -/
def fdivN (a b : ℚ) : Option ℚ :=
  if b = 0 then none else some (a / b)

/-- Model of `utility.rs::linspace(start, end, numel)` (eager builder).
Elements are `Option ℚ`: `none` marks a non-finite (NaN) element, which the
source produces via `t as f64 / n` when `n = (numel - 1) as f64 = 0`. -/
def linspace (start stop : ℚ) (numel : ℕ) : List (Option ℚ) :=
  if numel = 0 then []
  else
    (List.range numel).map (fun t =>
      (fdivN (t : ℚ) ((numel - 1 : ℕ) : ℚ)).map (fun u => lerp start stop u))

/-- Model of `utility.rs::Linspace`.  The source field `end` is a reserved
word in Lean and is called `stop` here; `t` is the shared cursor. -/
structure Linspace where
  start : ℚ
  stop : ℚ
  numel : ℕ
  t : ℕ
  deriving DecidableEq, Repr

/-- Model of `Linspace::new(start, end, numel)`: `numel == 1` is normalised
to the two-element representation positioned at the end. -/
def Linspace.new (start stop : ℚ) (numel : ℕ) : Linspace :=
  if numel = 1 then ⟨start, stop, 2, 1⟩ else ⟨start, stop, numel, 0⟩

/-- Model of `Linspace::t_n(t, numel) = t as f64 / (numel - 1) as f64`.
The subtraction is `ℕ`-truncated like the `usize` one in the source; the
divisor is zero only for `numel ≤ 1`, a state no theorem below reaches
through `Linspace.new` (ℚ division by zero yields 0 where f64 would give a
non-finite value). -/
def Linspace.t_n (t numel : ℕ) : ℚ :=
  (t : ℚ) / ((numel - 1 : ℕ) : ℚ)

/-- Model of `<Linspace as Iterator>::next`. -/
def Linspace.next (l : Linspace) : Option ℚ × Linspace :=
  if l.numel = l.t then (none, l)
  else (some (lerp l.start l.stop (Linspace.t_n l.t l.numel)), { l with t := l.t + 1 })

/-- Model of `<Linspace as DoubleEndedIterator>::next_back`. -/
def Linspace.next_back (l : Linspace) : Option ℚ × Linspace :=
  if l.t = 0 then (none, l)
  else (some (lerp l.start l.stop (Linspace.t_n (l.t - 1) l.numel)), { l with t := l.t - 1 })

/-- Checked natural subtraction: `none` models the `usize` underflow event
(a debug-mode panic / release-mode wrap in Rust). -/
def checkedSub (a b : ℕ) : Option ℕ :=
  if b ≤ a then some (a - b) else none

/-- Model of `<Linspace as Iterator>::last`, which evaluates
`lerp(start, end, t_n(numel - 1, numel))` and always wraps it in `Some`.
`Except.error ()` models the unguarded `numel - 1` underflowing at
`numel = 0`; `Except.ok` carries the `Option` the source returns. -/
def Linspace.last (l : Linspace) : Except Unit (Option ℚ) :=
  match checkedSub l.numel 1 with
  | none => Except.error ()
  | some m => Except.ok (some (lerp l.start l.stop (Linspace.t_n m l.numel)))

/-- Apply the state part of `Linspace.next` `k` times. -/
def Linspace.stepF : ℕ → Linspace → Linspace
  | 0, l => l
  | k + 1, l => Linspace.stepF k (Linspace.next l).2

/-- Direction of an advance on a `Linspace`: forward (`next`) or
backward (`next_back`). -/
inductive Dir where
  | F
  | B
  deriving DecidableEq, Repr

/-- One advance in the given direction: `next` for forward, `next_back` for
backward. -/
def Linspace.opStep (d : Dir) (l : Linspace) : Option ℚ × Linspace :=
  match d with
  | Dir.F => Linspace.next l
  | Dir.B => Linspace.next_back l

/-- Run a list of forward/backward advances on a `Linspace`, recording each
direction with the value it produced (if any), and the final state. -/
def Linspace.runOps : List Dir → Linspace → List (Dir × Option ℚ) × Linspace
  | [], l => ([], l)
  | d :: ds, l =>
    ((d, (Linspace.opStep d l).1) :: (Linspace.runOps ds (Linspace.opStep d l).2).1,
      (Linspace.runOps ds (Linspace.opStep d l).2).2)

/-- Number of value-producing advances of direction `d` in a run record. -/
def succCount (d : Dir) (outs : List (Dir × Option ℚ)) : ℕ :=
  (outs.filter (fun p => p.1 = d ∧ p.2.isSome)).length

/-- Model of `utility.rs::Stepper`. -/
structure Stepper where
  t : ℚ
  dt : ℚ
  deriving DecidableEq, Repr

/-- Model of `Stepper::new(dt)`. -/
def Stepper.new (dt : ℚ) : Stepper :=
  ⟨0, dt⟩

/-- Model of `Stepper::with_numel(n)`. -/
def Stepper.with_numel (n : ℕ) : Stepper :=
  { t := if n = 0 then 2 else 0,
    dt := if 1 < n then 1 / ((n - 1 : ℕ) : ℚ) else 2 }

/-- Model of `<Stepper as Iterator>::next`. -/
def Stepper.next (s : Stepper) : Option ℚ × Stepper :=
  if 1 < s.t then (none, s)
  else (some s.t, { s with t := s.t + s.dt })

/-- Floor clamped below at 0: the specification-side helper used by the
closed form `Stepper.remaining` (the faithful model of the source cast,
with its upper saturation, is `ratToUsize` below). -/
def ratToNat (x : ℚ) : ℕ :=
  (⌊x⌋).toNat

/-- Apply the state part of `Stepper.next` `k` times. -/
def Stepper.stepN : ℕ → Stepper → Stepper
  | 0, s => s
  | k + 1, s => Stepper.stepN k (Stepper.next s).2

/-- Number of value-producing `next` calls among the first `fuel` calls. -/
def Stepper.countSome : ℕ → Stepper → ℕ
  | 0, _ => 0
  | fuel + 1, s =>
    match Stepper.next s with
    | (none, _) => 0
    | (some _, s') => Stepper.countSome fuel s' + 1

/-- Closed form for the number of values a `Stepper` with positive step will
still yield (proved equal to the operational count in `countSome_eq_min`). -/
def Stepper.remaining (s : Stepper) : ℕ :=
  if 1 < s.t then 0 else ratToNat ((1 - s.t) / s.dt) + 1

/-- An `f64` value with the IEEE special values needed by the polynomial
claims: a finite value (exact, since every product and sum the claims
evaluate is exact in binary64), the two infinities, and NaN.  Signed zero is
not distinguished (IEEE `==` does not distinguish it either). -/
inductive F64 where
  | fin (q : ℚ)
  | pinf
  | ninf
  | nan
  deriving DecidableEq, Repr

/-- IEEE multiplication on `F64`: NaN propagates, `±∞ * 0` is NaN, signs of
infinities follow the sign rule; finite products are exact. -/
def F64.mul : F64 → F64 → F64
  | F64.nan, _ => F64.nan
  | _, F64.nan => F64.nan
  | F64.fin a, F64.fin b => F64.fin (a * b)
  | F64.pinf, F64.fin b =>
    if b = 0 then F64.nan else if 0 < b then F64.pinf else F64.ninf
  | F64.ninf, F64.fin b =>
    if b = 0 then F64.nan else if 0 < b then F64.ninf else F64.pinf
  | F64.fin a, F64.pinf =>
    if a = 0 then F64.nan else if 0 < a then F64.pinf else F64.ninf
  | F64.fin a, F64.ninf =>
    if a = 0 then F64.nan else if 0 < a then F64.ninf else F64.pinf
  | F64.pinf, F64.pinf => F64.pinf
  | F64.pinf, F64.ninf => F64.ninf
  | F64.ninf, F64.pinf => F64.ninf
  | F64.ninf, F64.ninf => F64.pinf

/-- IEEE addition on `F64`: NaN propagates, `+∞ + -∞` is NaN; finite sums
are exact. -/
def F64.add : F64 → F64 → F64
  | F64.nan, _ => F64.nan
  | _, F64.nan => F64.nan
  | F64.fin a, F64.fin b => F64.fin (a + b)
  | F64.pinf, F64.ninf => F64.nan
  | F64.ninf, F64.pinf => F64.nan
  | F64.pinf, _ => F64.pinf
  | F64.ninf, _ => F64.ninf
  | F64.fin _, F64.pinf => F64.pinf
  | F64.fin _, F64.ninf => F64.ninf

/-- Model of `poly_eval` (identical bodies in `utility.rs` and `lib.rs`):
`coefficients.iter().fold(0., |b,c| (x*b) + c)`. -/
def poly_eval (coefficients : List F64) (x : F64) : F64 :=
  coefficients.foldl (fun b c => F64.add (F64.mul x b) c) (F64.fin 0)

/-- Integer power of two over ℚ. -/
def pow2 (e : ℤ) : ℚ :=
  (2 : ℚ) ^ e

/-- Binary exponent search, downward direction: for `0 < x < 2` returns `e ≤ 0`
with `2^e ≤ x < 2^(e+1)`, given fuel larger than `-e`. -/
def expDn (fuel : ℕ) (x : ℚ) : ℤ :=
  match fuel with
  | 0 => 0
  | fuel + 1 => if 1 ≤ x then 0 else expDn fuel (2 * x) - 1

/-- Binary exponent search, upward direction: for `1 ≤ x` returns `e ≥ 0`
with `2^e ≤ x < 2^(e+1)`, given fuel larger than `e`. -/
def expUp (fuel : ℕ) (x : ℚ) : ℤ :=
  match fuel with
  | 0 => 0
  | fuel + 1 => if x < 2 then 0 else expUp fuel (x / 2) + 1

/-- Round a real (rational) value to the nearest IEEE binary64 value, ties
to even: the significand is rounded to 53 bits (the fractional-part
comparisons are phrased through `2 * scaled` to avoid subtraction).  The
exponent search fuel of 64 covers magnitudes in `(2^-63, 2^63)`; subnormal
underflow and overflow to infinity are not modelled.  Every value rounded in
this development is well inside those bounds. -/
def round64 (q : ℚ) : ℚ :=
  if q = 0 then 0
  else
    let x := if q < 0 then -q else q
    let e := if 1 ≤ x then expUp 64 x else expDn 64 x
    let scaled := x * pow2 (52 - e)
    let f := ⌊scaled⌋
    let m := if 2 * scaled < 2 * (f : ℚ) + 1 then f
      else if 2 * (f : ℚ) + 1 < 2 * scaled then f + 1
      else if f % 2 = 0 then f else f + 1
    (if q < 0 then -1 else 1) * (m : ℚ) * pow2 (e - 52)

/-- A single correctly-rounded binary64 subtraction. -/
def sub64 (a b : ℚ) : ℚ :=
  round64 (a - b)

/-- Model of `compose.rs::flip`, `1. - t`, as the binary64 operation the
source performs (one rounded subtraction).  The source name `flip` is taken
by the Lean core library, hence the namespace. -/
def Compose.flip (t : ℚ) : ℚ :=
  sub64 1 t

/-- Largest `usize` value on the 64-bit targets the crate builds for. -/
def usizeMax : ℕ :=
  2 ^ 64 - 1

/-- Model of the Rust `as usize` cast of an `f64`: truncation toward zero,
saturating at `0` for negative inputs and at `usize::MAX` for large ones. -/
def ratToUsize (x : ℚ) : ℕ :=
  min (⌊x⌋).toNat usizeMax

/-- Model of `<Stepper as Iterator>::size_hint` with the binary64 rounding
of its arithmetic made explicit: the source computes
`min = (1f64 - self.t) / self.dt` and `max = 1f64 / self.dt` (a rounded
subtraction and two rounded divisions), casts with `as usize` (saturating),
and adds one (which wraps on overflow in release builds; a debug build
would panic there instead).  The source returns `(min, Some(max))` and the
`Option` around `max` is dropped. -/
def Stepper.size_hint (s : Stepper) : ℕ × ℕ :=
  ((ratToUsize (round64 (round64 (1 - s.t) / s.dt)) + 1) % 2 ^ 64,
    (ratToUsize (round64 (1 / s.dt)) + 1) % 2 ^ 64)

/-- Model of `<Stepper as Iterator>::next` with the binary64 rounding of
`self.t += self.dt` made explicit.  The exact-arithmetic `Stepper.next` is
kept for the claims whose argument is rounding-robust (no arithmetic on the
exercised path, or a pure sign argument); the stepper count analysis is
stated against this rounded advance. -/
def Stepper.next64 (s : Stepper) : Option ℚ × Stepper :=
  if 1 < s.t then (none, s)
  else (some s.t, { s with t := round64 (s.t + s.dt) })

/-- Number of value-producing `next64` calls among the first `fuel` calls. -/
def Stepper.countSome64 : ℕ → Stepper → ℕ
  | 0, _ => 0
  | fuel + 1, s =>
    match Stepper.next64 s with
    | (none, _) => 0
    | (some _, s') => Stepper.countSome64 fuel s' + 1


/-- Invariant of iterated forward advances: `numel` never changes and the
cursor moves to `min (t + k) numel`. -/
theorem Linspace.stepF_spec (k : ℕ) (l : Linspace) (h : l.t ≤ l.numel) :
    (Linspace.stepF k l).numel = l.numel ∧
      (Linspace.stepF k l).t = min (l.t + k) l.numel := by
  induction k generalizing l with
  | zero => simpa [Linspace.stepF] using by omega
  | succ k ih =>
    rw [Linspace.stepF]
    by_cases he : l.numel = l.t
    · have hn : (Linspace.next l).2 = l := by simp [Linspace.next, he]
      rw [hn]
      rcases ih l h with ⟨h1, h2⟩
      refine ⟨h1, ?_⟩
      rw [h2]
      omega
    · have hn : (Linspace.next l).2 = { l with t := l.t + 1 } := by
        simp [Linspace.next, he]
      rw [hn]
      rcases ih { l with t := l.t + 1 } (by simp; omega) with ⟨h1, h2⟩
      refine ⟨by simpa using h1, ?_⟩
      rw [h2]
      simp
      omega

/-- C5: for every start, end and `n ≥ 0`, forward iteration of
`Linspace::new(start, end, n)` produces a value at exactly the first `n`
advances and "no value" from the `n`-th advance on — in particular `n = 1`,
normalised internally to `numel = 2, t = 1`, yields exactly one value. -/
theorem c5_forward_count (s e : ℚ) (n k : ℕ) :
    ((Linspace.stepF k (Linspace.new s e n)).next.1).isSome = true ↔ k < n := by
  have hio : ∀ m : Linspace, ((Linspace.next m).1.isSome = true ↔ ¬ m.numel = m.t) := by
    intro m
    by_cases hc : m.numel = m.t <;> simp [Linspace.next, hc]
  by_cases hn : n = 1
  · subst hn
    have hnum : (Linspace.new s e 1).numel = 2 := by simp [Linspace.new]
    have ht : (Linspace.new s e 1).t = 1 := by simp [Linspace.new]
    rcases Linspace.stepF_spec k (Linspace.new s e 1) (by rw [ht, hnum]; omega)
      with ⟨h1, h2⟩
    rw [hnum] at h1
    rw [ht, hnum] at h2
    rw [hio, h1, h2]
    omega
  · have hnum : (Linspace.new s e n).numel = n := by simp [Linspace.new, hn]
    have ht : (Linspace.new s e n).t = 0 := by simp [Linspace.new, hn]
    rcases Linspace.stepF_spec k (Linspace.new s e n) (by rw [ht]; omega)
      with ⟨h1, h2⟩
    rw [hnum] at h1
    rw [ht, hnum] at h2
    rw [hio, h1, h2]
    omega

/-- C4: for every `Linspace` built with `numel ≥ 1`, the `last` operation
returns exactly the constructor argument `end` (the parameter evaluates to
`(numel-1)/(numel-1) = 1` and `lerp(start, end, 1) = end`, all of it exact
in binary64 as well). -/
theorem c4_last_exact (s e : ℚ) (n : ℕ) (h : 1 ≤ n) :
    (Linspace.new s e n).last = Except.ok (some e) := by
  by_cases hn : n = 1
  · subst hn
    norm_num [Linspace.new, Linspace.last, checkedSub, Linspace.t_n, lerp]
  · have h2 : 2 ≤ n := by omega
    have hnew : (Linspace.new s e n) = ⟨s, e, n, 0⟩ := by simp [Linspace.new, hn]
    rw [hnew]
    have hsub : checkedSub n 1 = some (n - 1) := by
      simp [checkedSub]
      omega
    have hz : ((n - 1 : ℕ) : ℚ) ≠ 0 := by
      have : 1 ≤ n - 1 := by omega
      exact_mod_cast Nat.pos_iff_ne_zero.mp (by omega)
    simp only [Linspace.last, hsub, Linspace.t_n, lerp, div_self hz]
    norm_num

/-- C4 witness at `Linspace::new(2, 5, 3)`. -/
theorem c4_last_exact_witness :
    1 ≤ 3 ∧ (Linspace.new 2 5 3).last = Except.ok (some 5) :=
  ⟨by decide, c4_last_exact 2 5 3 (by decide)⟩

/-- C9: at the zero-element configuration, both advance operations return
"no value", but `last` reaches the unguarded `numel - 1` subtraction, which
underflows (modelled by `Except.error ()`) instead of returning a
"no value" result. -/
theorem c9_last_underflow (s e : ℚ) :
    (Linspace.new s e 0).last = Except.error () ∧
      (Linspace.new s e 0).next.1 = none ∧
      (Linspace.new s e 0).next_back.1 = none := by
  refine ⟨?_, ?_, ?_⟩ <;>
    simp [Linspace.new, Linspace.last, checkedSub, Linspace.next, Linspace.next_back]

/-- C2: the eager `linspace(0., 1., 1)` evaluates its only parameter as
`0.0 / 0.0`, a NaN (modelled `none`), so its element is not `end`; the lazy
`Linspace::new(0., 1., 1)` yields exactly `end = 1` — the two generators
disagree and the eager one does not return `[end]`. -/
theorem c2_eager_single_nan :
    linspace 0 1 1 = [none] ∧ (Linspace.new 0 1 1).next.1 = some 1 := by
  constructor
  · norm_num [linspace, fdivN, List.range_succ]
  · norm_num [Linspace.new, Linspace.next, Linspace.t_n, lerp]

/-- Once the cursor has passed `1`, a `Stepper` is frozen: advancing leaves
the state unchanged. -/
theorem Stepper.stepN_frozen (k : ℕ) (s : Stepper) (h : 1 < s.t) :
    Stepper.stepN k s = s := by
  induction k with
  | zero => rfl
  | succ k ih =>
    rw [Stepper.stepN]
    have : (Stepper.next s).2 = s := by simp [Stepper.next, h]
    rw [this, ih]

/-- C6: `Stepper::with_numel` computes `step = 1/(n-1)` for `n > 1`; for
`n = 1` the first advance yields exactly `0.0` and every later advance
yields nothing; for `n = 0` every advance from the start yields nothing. -/
theorem c6_with_numel :
    (∀ n : ℕ, 1 < n → (Stepper.with_numel n).dt = 1 / ((n : ℚ) - 1)) ∧
      ((Stepper.with_numel 1).next.1 = some 0 ∧
        ∀ k, 1 ≤ k → (Stepper.stepN k (Stepper.with_numel 1)).next.1 = none) ∧
      (∀ k, (Stepper.stepN k (Stepper.with_numel 0)).next.1 = none) := by
  refine ⟨?_, ⟨?_, ?_⟩, ?_⟩
  · intro n hn
    have h1 : ((n - 1 : ℕ) : ℚ) = (n : ℚ) - 1 := by
      push_cast [Nat.cast_sub (by omega : 1 ≤ n)]
      ring
    simp [Stepper.with_numel, hn, h1]
  · norm_num [Stepper.with_numel, Stepper.next]
  · intro k hk
    obtain ⟨j, rfl⟩ : ∃ j, k = j + 1 := ⟨k - 1, by omega⟩
    have hstep : ((Stepper.with_numel 1).next).2 = ⟨2, 2⟩ := by
      norm_num [Stepper.with_numel, Stepper.next]
    rw [Stepper.stepN, hstep, Stepper.stepN_frozen j ⟨2, 2⟩ (by norm_num)]
    norm_num [Stepper.next]
  · intro k
    have h0 : (Stepper.with_numel 0) = ⟨2, 2⟩ := by norm_num [Stepper.with_numel]
    rw [h0, Stepper.stepN_frozen k ⟨2, 2⟩ (by norm_num)]
    norm_num [Stepper.next]

/-- C6 witness at `n = 3` (for the `n > 1` step formula) and `k = 2`
(for the permanent termination of the `n = 1` stepper). -/
theorem c6_with_numel_witness :
    (1 < 3 ∧ (Stepper.with_numel 3).dt = 1 / ((3 : ℚ) - 1)) ∧
      (1 ≤ 2 ∧ (Stepper.stepN 2 (Stepper.with_numel 1)).next.1 = none) :=
  ⟨⟨by decide, c6_with_numel.1 3 (by decide)⟩,
    ⟨by decide, c6_with_numel.2.1.2 2 (by decide)⟩⟩

/-- Auxiliary invariant for C10: a stepper whose cursor and step are both
nonpositive keeps a nonpositive cursor and the same step forever. -/
theorem Stepper.stepN_nonpos (k : ℕ) (s : Stepper) (ht : s.t ≤ 0) (hdt : s.dt ≤ 0) :
    (Stepper.stepN k s).t ≤ 0 ∧ (Stepper.stepN k s).dt = s.dt := by
  induction k generalizing s with
  | zero => exact ⟨ht, rfl⟩
  | succ k ih =>
    rw [Stepper.stepN]
    have hlt : ¬ 1 < s.t := by linarith
    have hstep : (Stepper.next s).2 = ⟨s.t + s.dt, s.dt⟩ := by
      simp [Stepper.next, hlt]
    rw [hstep]
    exact ih ⟨s.t + s.dt, s.dt⟩ (by simp; linarith) hdt

/-- C10: for every step size `dt ≤ 0`, the stepper built by
`Stepper::new(dt)` never terminates — its cursor never exceeds `1`, so every
advance, at any point of the infinite run, produces a value. -/
theorem c10_nonpositive_step_diverges (dt : ℚ) (h : dt ≤ 0) (k : ℕ) :
    (Stepper.stepN k (Stepper.new dt)).t ≤ 1 ∧
      ((Stepper.stepN k (Stepper.new dt)).next.1).isSome = true := by
  have ht0 : (Stepper.new dt).t ≤ 0 := by simp [Stepper.new]
  have hdt0 : (Stepper.new dt).dt ≤ 0 := by simpa [Stepper.new] using h
  rcases Stepper.stepN_nonpos k (Stepper.new dt) ht0 hdt0 with ⟨h1, _⟩
  have hle : (Stepper.stepN k (Stepper.new dt)).t ≤ 1 := by linarith
  refine ⟨hle, ?_⟩
  have : ¬ 1 < (Stepper.stepN k (Stepper.new dt)).t := by linarith
  simp [Stepper.next, this]

/-- C10 witness at `dt = -1`, three advances in. -/
theorem c10_nonpositive_step_diverges_witness :
    (-1 : ℚ) ≤ 0 ∧ (Stepper.stepN 3 (Stepper.new (-1))).t ≤ 1 ∧
      ((Stepper.stepN 3 (Stepper.new (-1))).next.1).isSome = true :=
  ⟨by norm_num,
    (c10_nonpositive_step_diverges (-1) (by norm_num) 3).1,
    (c10_nonpositive_step_diverges (-1) (by norm_num) 3).2⟩

/-- Unfolding equation for `runOps` on a non-empty op list. -/
theorem Linspace.runOps_cons (d : Dir) (ds : List Dir) (l : Linspace) :
    Linspace.runOps (d :: ds) l =
      ((d, (Linspace.opStep d l).1) :: (Linspace.runOps ds (Linspace.opStep d l).2).1,
        (Linspace.runOps ds (Linspace.opStep d l).2).2) :=
  rfl

/-- Counting successful advances of one direction distributes over cons. -/
theorem succCount_cons (d d' : Dir) (o : Option ℚ) (outs : List (Dir × Option ℚ)) :
    succCount d ((d', o) :: outs) =
      (if d' = d ∧ o.isSome = true then 1 else 0) + succCount d outs := by
  by_cases h : d' = d ∧ o.isSome = true
  · simp [succCount, List.filter_cons, h]
    omega
  · simp [succCount, List.filter_cons, h]

/-- Invariant of any interleaving of forward and backward advances: the
element count is never changed, the shared cursor stays within
`[0, numel]`, and the cursor displacement equals the number of successful
forward advances minus the number of successful backward ones. -/
theorem Linspace.runOps_spec (ops : List Dir) (l : Linspace) (h : l.t ≤ l.numel) :
    (Linspace.runOps ops l).2.numel = l.numel ∧
      (Linspace.runOps ops l).2.t ≤ l.numel ∧
      ((Linspace.runOps ops l).2.t : ℤ) + succCount Dir.B (Linspace.runOps ops l).1 =
        (l.t : ℤ) + succCount Dir.F (Linspace.runOps ops l).1 := by
  induction ops generalizing l with
  | nil =>
    refine ⟨rfl, h, ?_⟩
    simp [Linspace.runOps, succCount]
  | cons d ds ih =>
    cases d with
    | F =>
      by_cases he : l.numel = l.t
      · have hstep : Linspace.opStep Dir.F l = (none, l) := by
          simp [Linspace.opStep, Linspace.next, he]
        rw [Linspace.runOps_cons, hstep]
        dsimp only
        rcases ih l h with ⟨ih1, ih2, ih3⟩
        rw [succCount_cons, succCount_cons]
        simp only [Option.isSome_none, Bool.false_eq_true, and_false, if_false]
        exact ⟨ih1, ih2, by omega⟩
      · have hstep : Linspace.opStep Dir.F l =
            (some (lerp l.start l.stop (Linspace.t_n l.t l.numel)),
              { l with t := l.t + 1 }) := by
          simp [Linspace.opStep, Linspace.next, he]
        rw [Linspace.runOps_cons, hstep]
        dsimp only
        rcases ih { l with t := l.t + 1 } (by simp; omega) with ⟨ih1, ih2, ih3⟩
        dsimp only at ih1 ih2 ih3
        rw [succCount_cons, succCount_cons]
        have hFF : Dir.F = Dir.F ∧
            (some (lerp l.start l.stop (Linspace.t_n l.t l.numel))).isSome = true := by
          simp
        have hFB : ¬ (Dir.F = Dir.B ∧
            (some (lerp l.start l.stop (Linspace.t_n l.t l.numel))).isSome = true) := by
          simp
        rw [if_pos hFF, if_neg hFB]
        exact ⟨ih1, ih2, by omega⟩
    | B =>
      by_cases ht0 : l.t = 0
      · have hstep : Linspace.opStep Dir.B l = (none, l) := by
          simp [Linspace.opStep, Linspace.next_back, ht0]
        rw [Linspace.runOps_cons, hstep]
        dsimp only
        rcases ih l h with ⟨ih1, ih2, ih3⟩
        rw [succCount_cons, succCount_cons]
        simp only [Option.isSome_none, Bool.false_eq_true, and_false, if_false]
        exact ⟨ih1, ih2, by omega⟩
      · have hstep : Linspace.opStep Dir.B l =
            (some (lerp l.start l.stop (Linspace.t_n (l.t - 1) l.numel)),
              { l with t := l.t - 1 }) := by
          simp [Linspace.opStep, Linspace.next_back, ht0]
        rw [Linspace.runOps_cons, hstep]
        dsimp only
        rcases ih { l with t := l.t - 1 } (by simp; omega) with ⟨ih1, ih2, ih3⟩
        dsimp only at ih1 ih2 ih3
        rw [succCount_cons, succCount_cons]
        have hBB : Dir.B = Dir.B ∧
            (some (lerp l.start l.stop (Linspace.t_n (l.t - 1) l.numel))).isSome = true := by
          simp
        have hBF : ¬ (Dir.B = Dir.F ∧
            (some (lerp l.start l.stop (Linspace.t_n (l.t - 1) l.numel))).isSome = true) := by
          simp
        rw [if_pos hBB, if_neg hBF]
        refine ⟨ih1, ih2, ?_⟩
        have h1t : 1 ≤ l.t := by omega
        omega

/-- C1 (amended): for every `Linspace` built by `new` and every interleaving
of forward and backward advances, the shared cursor stays within
`[0, numel]`, its displacement equals successful-forward minus
successful-backward advances, and hence the forward count exceeds the
backward count by at most `numel` — but the *total* of the two counts is
not bounded by `numel`, and a value can be re-produced from the other
direction (see the counterexample). -/
theorem c1_cursor_invariant (s e : ℚ) (n : ℕ) (ops : List Dir) :
    (Linspace.runOps ops (Linspace.new s e n)).2.numel = (Linspace.new s e n).numel ∧
      (Linspace.runOps ops (Linspace.new s e n)).2.t ≤ (Linspace.new s e n).numel ∧
      ((Linspace.runOps ops (Linspace.new s e n)).2.t : ℤ) +
          succCount Dir.B (Linspace.runOps ops (Linspace.new s e n)).1 =
        ((Linspace.new s e n).t : ℤ) +
          succCount Dir.F (Linspace.runOps ops (Linspace.new s e n)).1 ∧
      succCount Dir.F (Linspace.runOps ops (Linspace.new s e n)).1 ≤
        succCount Dir.B (Linspace.runOps ops (Linspace.new s e n)).1 +
          (Linspace.new s e n).numel := by
  have hinv : (Linspace.new s e n).t ≤ (Linspace.new s e n).numel := by
    by_cases hn : n = 1 <;> simp [Linspace.new, hn]
  rcases Linspace.runOps_spec ops (Linspace.new s e n) hinv with ⟨h1, h2, h3⟩
  exact ⟨h1, h2, h3, by omega⟩

/-- C1 counterexample: on `Linspace::new(0., 1., 2)` the run
`next; next_back; next` makes three value-producing advances — more than
`numel = 2` — and the backward advance re-produces the value `0.` that the
first forward advance already produced. -/
theorem c1_counterexample :
    (Linspace.runOps [Dir.F, Dir.B, Dir.F] (Linspace.new 0 1 2)).1 =
        [(Dir.F, some 0), (Dir.B, some 0), (Dir.F, some 0)] ∧
      (Linspace.new 0 1 2).numel = 2 ∧
      succCount Dir.F (Linspace.runOps [Dir.F, Dir.B, Dir.F] (Linspace.new 0 1 2)).1 +
          succCount Dir.B (Linspace.runOps [Dir.F, Dir.B, Dir.F] (Linspace.new 0 1 2)).1 = 3 ∧
      ¬ (succCount Dir.F (Linspace.runOps [Dir.F, Dir.B, Dir.F] (Linspace.new 0 1 2)).1 +
            succCount Dir.B (Linspace.runOps [Dir.F, Dir.B, Dir.F] (Linspace.new 0 1 2)).1 ≤
          (Linspace.new 0 1 2).numel) := by
  have hlist : (Linspace.runOps [Dir.F, Dir.B, Dir.F] (Linspace.new 0 1 2)).1 =
      [(Dir.F, some 0), (Dir.B, some 0), (Dir.F, some 0)] := by
    norm_num [Linspace.runOps, Linspace.opStep, Linspace.new, Linspace.next,
      Linspace.next_back, Linspace.t_n, lerp]
  have hnum : (Linspace.new 0 1 2).numel = 2 := by norm_num [Linspace.new]
  have hF : succCount Dir.F [(Dir.F, some (0:ℚ)), (Dir.B, some 0), (Dir.F, some 0)] = 2 := by
    simp [succCount, List.filter]
  have hB : succCount Dir.B [(Dir.F, some (0:ℚ)), (Dir.B, some 0), (Dir.F, some 0)] = 1 := by
    simp [succCount, List.filter]
  rw [hlist, hnum, hF, hB]
  refine ⟨rfl, rfl, rfl, by omega⟩

/-- The saturating `f64 -> usize` cast model is monotone. -/
theorem ratToNat_mono {a b : ℚ} (h : a ≤ b) : ratToNat a ≤ ratToNat b :=
  Int.toNat_le_toNat (Int.floor_le_floor h)

/-- One value-producing advance decrements `remaining` by exactly one
(positive step). -/
theorem Stepper.remaining_step (s : Stepper) (hdt : 0 < s.dt) (ht : ¬ 1 < s.t) :
    Stepper.remaining s = Stepper.remaining ⟨s.t + s.dt, s.dt⟩ + 1 := by
  unfold Stepper.remaining
  dsimp only
  rw [if_neg ht]
  by_cases h2 : (1 : ℚ) < s.t + s.dt
  · rw [if_pos h2]
    have hlt : (1 - s.t) / s.dt < 1 := by
      rw [div_lt_one hdt]
      linarith
    have hfl : ⌊(1 - s.t) / s.dt⌋ < 1 :=
      Int.floor_lt.mpr (by exact_mod_cast hlt)
    unfold ratToNat
    omega
  · rw [if_neg h2]
    have hdt0 : s.dt ≠ 0 := ne_of_gt hdt
    have heq : (1 - s.t) / s.dt = (1 - (s.t + s.dt)) / s.dt + 1 := by
      field_simp
      ring
    have hfl : ⌊(1 - s.t) / s.dt⌋ = ⌊(1 - (s.t + s.dt)) / s.dt⌋ + 1 := by
      rw [heq, Int.floor_add_one]
    have hnonneg : 0 ≤ ⌊(1 - (s.t + s.dt)) / s.dt⌋ :=
      Int.floor_nonneg.mpr (div_nonneg (by linarith) hdt.le)
    unfold ratToNat
    omega

/-- The operational count of produced values equals `min fuel remaining`
for a positive step: `remaining` is the closed form of the true eventual
count. -/
theorem Stepper.countSome_eq_min (fuel : ℕ) (s : Stepper) (hdt : 0 < s.dt) :
    Stepper.countSome fuel s = min fuel (Stepper.remaining s) := by
  induction fuel generalizing s with
  | zero => simp [Stepper.countSome]
  | succ fuel ih =>
    by_cases ht : (1 : ℚ) < s.t
    · have hnext : Stepper.next s = (none, s) := by simp [Stepper.next, ht]
      have hrem : Stepper.remaining s = 0 := by simp [Stepper.remaining, ht]
      simp [Stepper.countSome, hnext, hrem]
    · have hnext : Stepper.next s = (some s.t, ⟨s.t + s.dt, s.dt⟩) := by
        simp [Stepper.next, ht]
      have hrec := ih ⟨s.t + s.dt, s.dt⟩ hdt
      have hrem := Stepper.remaining_step s hdt ht
      simp only [Stepper.countSome, hnext]
      rw [hrec, hrem]
      omega

/-- Below the saturation range, the saturating cast agrees with the plain
clamped floor and the subsequent `+ 1` cannot wrap. -/
theorem ratToUsize_small {x : ℚ} (h : x < 2 ^ 63) :
    ratToUsize x = ratToNat x ∧ ratToNat x + 1 < 2 ^ 64 := by
  have hfl : ⌊x⌋ < 2 ^ 63 := by
    have h2 : x < ((2 ^ 63 : ℤ) : ℚ) := by exact_mod_cast h
    exact Int.floor_lt.mpr h2
  unfold ratToUsize ratToNat usizeMax
  constructor <;> omega

/-- While every cursor sum `t + k*dt` along the remaining run is exactly
representable, the rounded advance `next64` produces exactly as many values
as the exact-arithmetic advance: the exactness hypothesis is what ties the
idealised count to the binary64 program. -/
theorem Stepper.countSome64_eq (fuel : ℕ) (s : Stepper) (hdt : 0 < s.dt)
    (hsums : ∀ k : ℕ, k ≤ Stepper.remaining s →
      round64 (s.t + (k : ℚ) * s.dt) = s.t + (k : ℚ) * s.dt) :
    Stepper.countSome64 fuel s = Stepper.countSome fuel s := by
  induction fuel generalizing s with
  | zero => rfl
  | succ fuel ih =>
    by_cases ht : (1 : ℚ) < s.t
    · have h64 : Stepper.next64 s = (none, s) := by simp [Stepper.next64, ht]
      have hex : Stepper.next s = (none, s) := by simp [Stepper.next, ht]
      simp [Stepper.countSome64, Stepper.countSome, h64, hex]
    · have hrem1 : 1 ≤ Stepper.remaining s := by
        unfold Stepper.remaining
        rw [if_neg ht]
        omega
      have hone : round64 (s.t + s.dt) = s.t + s.dt := by
        have h1 := hsums 1 hrem1
        rw [Nat.cast_one, one_mul] at h1
        exact h1
      have h64 : Stepper.next64 s = (some s.t, ⟨s.t + s.dt, s.dt⟩) := by
        simp [Stepper.next64, ht, hone]
      have hex : Stepper.next s = (some s.t, ⟨s.t + s.dt, s.dt⟩) := by
        simp [Stepper.next, ht]
      have hrem := Stepper.remaining_step s hdt ht
      have hsums2 : ∀ k : ℕ, k ≤ Stepper.remaining ⟨s.t + s.dt, s.dt⟩ →
          round64 (s.t + s.dt + (k : ℚ) * s.dt) = s.t + s.dt + (k : ℚ) * s.dt := by
        intro k hk
        have hk1 : k + 1 ≤ Stepper.remaining s := by omega
        have h2 := hsums (k + 1) hk1
        have harith : s.t + ((k + 1 : ℕ) : ℚ) * s.dt = s.t + s.dt + (k : ℚ) * s.dt := by
          push_cast
          ring
        rw [harith] at h2
        exact h2
      simp only [Stepper.countSome64, Stepper.countSome, h64, hex]
      rw [ih ⟨s.t + s.dt, s.dt⟩ hdt hsums2]

/-- C3 (amended): consider a `Stepper` state with positive step and
nonnegative cursor whose hint arithmetic is exact in binary64 (the
subtraction `1 - t` and the two hint divisions round to themselves), whose
`max` hint is below the `usize` saturation range, and whose cursor sums
`t + k*dt` are exactly representable along the whole remaining run — the
scope on which the rounded program provably coincides with exact
arithmetic.  There the true eventual count of values produced by the
rounded advance never exceeds the `max` hint, and the `min` hint exceeds
the true count by at most one (the slack of one is forced by the
counterexample: at exhausted states the source computes
`(negative)/dt as usize + 1 = 1` while nothing remains).  Outside this
scope the hints are only estimates: rounded accumulation can stall below
`1.0` and make the true count exceed both hints. -/
theorem c3_size_hint_brackets (s : Stepper) (hdt : 0 < s.dt) (ht : 0 ≤ s.t)
    (hbound : 1 / s.dt < 2 ^ 63)
    (hsub : round64 (1 - s.t) = 1 - s.t)
    (hmin : round64 ((1 - s.t) / s.dt) = (1 - s.t) / s.dt)
    (hmax : round64 (1 / s.dt) = 1 / s.dt)
    (hsums : ∀ k : ℕ, k ≤ Stepper.remaining s →
      round64 (s.t + (k : ℚ) * s.dt) = s.t + (k : ℚ) * s.dt) :
    (∀ fuel, Stepper.countSome64 fuel s ≤ (Stepper.size_hint s).2) ∧
      (∀ fuel, Stepper.remaining s ≤ fuel →
        (Stepper.size_hint s).1 ≤ Stepper.countSome64 fuel s + 1) ∧
      (∀ fuel, Stepper.remaining s ≤ fuel →
        Stepper.countSome64 fuel s = Stepper.remaining s) := by
  have hcs : ∀ fuel, Stepper.countSome64 fuel s = Stepper.countSome fuel s :=
    fun fuel => Stepper.countSome64_eq fuel s hdt hsums
  obtain ⟨hu2, hm2⟩ := ratToUsize_small hbound
  have hmaxhint : (Stepper.size_hint s).2 = ratToNat (1 / s.dt) + 1 := by
    show (ratToUsize (round64 (1 / s.dt)) + 1) % 2 ^ 64 = ratToNat (1 / s.dt) + 1
    rw [hmax, hu2, Nat.mod_eq_of_lt hm2]
  have hmaxb : Stepper.remaining s ≤ (Stepper.size_hint s).2 := by
    rw [hmaxhint]
    by_cases hgt : (1 : ℚ) < s.t
    · have hrem : Stepper.remaining s = 0 := by simp [Stepper.remaining, hgt]
      rw [hrem]
      exact Nat.zero_le _
    · have hrem : Stepper.remaining s = ratToNat ((1 - s.t) / s.dt) + 1 := by
        simp [Stepper.remaining, hgt]
      have hle : (1 - s.t) / s.dt ≤ 1 / s.dt :=
        (div_le_div_iff_of_pos_right hdt).mpr (by linarith)
      have := ratToNat_mono hle
      rw [hrem]
      omega
  refine ⟨?_, ?_, ?_⟩
  · intro fuel
    rw [hcs fuel, Stepper.countSome_eq_min fuel s hdt]
    exact le_trans (Nat.min_le_right _ _) hmaxb
  · intro fuel hf
    have hc : Stepper.countSome64 fuel s = Stepper.remaining s := by
      rw [hcs fuel, Stepper.countSome_eq_min fuel s hdt]
      omega
    have hminhint : (Stepper.size_hint s).1 =
        (ratToUsize ((1 - s.t) / s.dt) + 1) % 2 ^ 64 := by
      show (ratToUsize (round64 (round64 (1 - s.t) / s.dt)) + 1) % 2 ^ 64 = _
      rw [hsub, hmin]
    rw [hc]
    by_cases hgt : (1 : ℚ) < s.t
    · have hneg : (1 - s.t) / s.dt < 0 := div_neg_of_neg_of_pos (by linarith) hdt
      have hfl : ⌊(1 - s.t) / s.dt⌋ < 0 := Int.floor_lt.mpr (by exact_mod_cast hneg)
      have hz : ratToUsize ((1 - s.t) / s.dt) = 0 := by
        unfold ratToUsize usizeMax
        omega
      rw [hminhint, hz]
      omega
    · have hq63 : (1 - s.t) / s.dt < 2 ^ 63 := by
        have hle : (1 - s.t) / s.dt ≤ 1 / s.dt :=
          (div_le_div_iff_of_pos_right hdt).mpr (by linarith)
        linarith
      obtain ⟨hu1, hm1⟩ := ratToUsize_small hq63
      have hrem : Stepper.remaining s = ratToNat ((1 - s.t) / s.dt) + 1 := by
        simp [Stepper.remaining, hgt]
      rw [hminhint, hu1, Nat.mod_eq_of_lt hm1, hrem]
      omega
  · intro fuel hf
    rw [hcs fuel, Stepper.countSome_eq_min fuel s hdt]
    omega

/-- C3 counterexample: `Stepper::with_numel(0)` — a state directly produced
by `with_numel` — reports `size_hint = (1, Some 1)` although the true
eventual count of yielded values is `0`: the lower bound does not bracket
the true count. -/
theorem c3_counterexample :
    (Stepper.with_numel 0).size_hint.1 = 1 ∧
      Stepper.remaining (Stepper.with_numel 0) = 0 ∧
      Stepper.countSome 5 (Stepper.with_numel 0) = 0 ∧
      ¬ ((Stepper.with_numel 0).size_hint.1 ≤
          Stepper.countSome 5 (Stepper.with_numel 0)) := by
  have h1 : (Stepper.with_numel 0).size_hint.1 = 1 := by
    norm_num [Stepper.size_hint, Stepper.with_numel, ratToUsize, usizeMax,
      round64, expDn, expUp, pow2]
    decide
  have h2 : Stepper.remaining (Stepper.with_numel 0) = 0 := by
    norm_num [Stepper.remaining, Stepper.with_numel]
  have h3 : Stepper.countSome 5 (Stepper.with_numel 0) = 0 := by
    norm_num [Stepper.countSome, Stepper.with_numel, Stepper.next]
  refine ⟨h1, h2, h3, ?_⟩
  rw [h1, h3]
  omega

/-- C3 witness at `Stepper::new(1.)`, whose two values `0.0, 1.0` and hint
computations are all exact: both hints bracket the true count up to the
slack of one. -/
theorem c3_size_hint_brackets_witness :
    (Stepper.new 1).size_hint.1 ≤ Stepper.countSome64 5 (Stepper.new 1) + 1 ∧
      Stepper.countSome64 5 (Stepper.new 1) ≤ (Stepper.new 1).size_hint.2 ∧
      Stepper.countSome64 5 (Stepper.new 1) = Stepper.remaining (Stepper.new 1) := by
  have hrem : Stepper.remaining (Stepper.new 1) = 2 := by
    norm_num [Stepper.remaining, Stepper.new, ratToNat]
  have hsums : ∀ k : ℕ, k ≤ Stepper.remaining (Stepper.new 1) →
      round64 ((Stepper.new 1).t + (k : ℚ) * (Stepper.new 1).dt) =
        (Stepper.new 1).t + (k : ℚ) * (Stepper.new 1).dt := by
    intro k hk
    rw [hrem] at hk
    interval_cases k <;> norm_num [Stepper.new, round64, expDn, expUp, pow2]
  have h := c3_size_hint_brackets (Stepper.new 1) (by decide) (by decide)
    (by norm_num [Stepper.new])
    (by norm_num [Stepper.new, round64, expDn, expUp, pow2])
    (by norm_num [Stepper.new, round64, expDn, expUp, pow2])
    (by norm_num [Stepper.new, round64, expDn, expUp, pow2])
    hsums
  exact ⟨h.2.1 5 (by rw [hrem]; omega), h.1 5, h.2.2 5 (by rw [hrem]; omega)⟩

/-- Folding the Horner step over all-zero coefficients keeps a zero
accumulator for any finite `x`. -/
theorem poly_eval_zero_fold (q : ℚ) (zs : List F64) (hz : ∀ c ∈ zs, c = F64.fin 0) :
    List.foldl (fun b c => F64.add (F64.mul (F64.fin q) b) c) (F64.fin 0) zs =
      F64.fin 0 := by
  induction zs with
  | nil => rfl
  | cons c rest ih =>
    have hc : c = F64.fin 0 := hz c (List.mem_cons_self c rest)
    subst hc
    rw [List.foldl_cons]
    have hstep : F64.add (F64.mul (F64.fin q) (F64.fin 0)) (F64.fin 0) = F64.fin 0 := by
      simp [F64.mul, F64.add]
    rw [hstep]
    exact ih (fun c hc => hz c (List.mem_cons_of_mem _ hc))

/-- C7 (amended): `poly_eval` on the empty coefficient sequence returns
`0.0` for every `x` including NaN and the infinities; on an all-zero
coefficient sequence it returns `0.0` for every *finite* `x` (for
non-finite `x` the first Horner step computes `x * 0.0 = NaN`, see the
counterexample). -/
theorem c7_zero_polys (x : F64) (q : ℚ) (zs : List F64)
    (hz : ∀ c ∈ zs, c = F64.fin 0) :
    poly_eval [] x = F64.fin 0 ∧ poly_eval zs (F64.fin q) = F64.fin 0 :=
  ⟨rfl, poly_eval_zero_fold q zs hz⟩

/-- C7 witness: the empty polynomial at NaN and the all-zero degree-1
polynomial at `x = 5`. -/
theorem c7_zero_polys_witness :
    poly_eval [] F64.nan = F64.fin 0 ∧
      poly_eval [F64.fin 0, F64.fin 0] (F64.fin 5) = F64.fin 0 :=
  ⟨(c7_zero_polys F64.nan 5 [F64.fin 0, F64.fin 0] (by decide)).1,
    (c7_zero_polys F64.nan 5 [F64.fin 0, F64.fin 0] (by decide)).2⟩

/-- C7 counterexample: the all-zero coefficient sequence `[0.0]` evaluated
at `x = +infinity` returns NaN (`inf * 0.0 = NaN` in the Horner step), not
`0.0` — so the all-zero clause does not extend to every `x`. -/
theorem c7_counterexample :
    poly_eval [F64.fin 0] F64.pinf = F64.nan ∧ F64.nan ≠ F64.fin 0 := by
  exact ⟨rfl, by decide⟩

/-- C8 (amended): `flip(flip(t)) == t` holds exactly at every `t` at which
the binary64 subtraction `1 - t` happens to be exact and `t` itself is
representable; binary64 rounding breaks the involution in general (see the
counterexample). -/
theorem c8_flip_involution_when_exact (t : ℚ)
    (h1 : sub64 1 t = 1 - t) (h2 : round64 t = t) :
    Compose.flip (Compose.flip t) = t := by
  unfold Compose.flip
  rw [h1]
  unfold sub64
  have hsimp : (1 : ℚ) - (1 - t) = t := by ring
  rw [hsimp, h2]

/-- C8 witness at the representable value `t = 1/4`, where `1 - t = 3/4` is
exact. -/
theorem c8_flip_involution_when_exact_witness :
    Compose.flip (Compose.flip (1/4)) = 1/4 :=
  c8_flip_involution_when_exact (1/4)
    (by norm_num [sub64, round64, expDn, expUp, pow2])
    (by norm_num [round64, expDn, expUp, pow2])

/-- C8 counterexample: `t = 2^-60` is a representable `f64`, but
`1. - t` rounds to `1.0` (the exact difference needs 60 significand bits
beyond the leading one), so `flip(flip(t)) = 0 != t`: the involution fails
under binary64 rounding. -/
theorem c8_counterexample :
    round64 (1/2^60) = 1/2^60 ∧
      Compose.flip (Compose.flip (1/2^60)) = 0 ∧
      (0 : ℚ) ≠ 1/2^60 := by
  refine ⟨?_, ?_, by norm_num⟩
  · norm_num [round64, expDn, expUp, pow2]
  · norm_num [Compose.flip, sub64, round64, expDn, expUp, pow2]

